import Mathlib

/-!
Verification of the DoReFa fake-quantization module
(micronet/compression/quantization/wqaq/dorefa/quantize.py).

Tensors are embedded as lists of exact numbers: rationals where the code is
pure arithmetic, reals where the code applies the hyperbolic tangent.
Machine floats are modelled by exact field arithmetic; torch.round is
modelled by round-half-to-even, torch's tie rule.  PyTorch itself
(module base class, autograd, F.conv2d, ...) is the external collaborator: wrapper
forwards are embedded as the description of the call they hand to the
external linear-algebra primitive.
-/

/-- Round half to even, torch.round's tie rule, over any ordered field
with a floor. -/
def rhe {α : Type} [LinearOrderedField α] [FloorRing α] (x : α) : ℤ :=
  if Int.fract x < 1 / 2 then ⌊x⌋
  else if 1 / 2 < Int.fract x then ⌊x⌋ + 1
  else if ⌊x⌋ % 2 = 0 then ⌊x⌋ else ⌊x⌋ + 1

/-- torch.clamp(x, lo, hi): min(max(x, lo), hi). -/
def torchClamp {α : Type} [LinearOrder α] (x lo hi : α) : α :=
  min (max x lo) hi

/-- torch.max(torch.abs(t)) over the flattened tensor, with 0 for the
empty tensor. -/
def maxAbs {α : Type} [LinearOrderedField α] (l : List α) : α :=
  l.foldr (fun v acc => max |v| acc) 0

namespace Round

/-- Round.forward: elementwise torch.round. -/
def forward {α : Type} [LinearOrderedField α] [FloorRing α]
    (input : List α) : List α :=
  input.map (fun v => ((rhe v : ℤ) : α))

/-- Round.backward: grad_input = grad_output.clone(); the clone is an
elementwise copy of the incoming gradient. -/
def backward {α : Type} [LinearOrderedField α] [FloorRing α]
    (grad_output : List α) : List α :=
  grad_output.map id

end Round

namespace ActivationQuantizer

/-- ActivationQuantizer.forward for a given a_bits. -/
def forward {α : Type} [LinearOrderedField α] [FloorRing α]
    (a_bits : ℕ) (input : List α) : Except String (List α) :=
  if a_bits = 32 then Except.ok input
  else if a_bits = 1 then Except.error "AssertionError: binary quantization is not supported"
  else
    let clamped := input.map (fun v => torchClamp (v * (1 / 10)) 0 1)
    let scale : α := 1 / ((2 : α) ^ a_bits - 1)
    Except.ok ((Round.forward (clamped.map (fun v => v / scale))).map (fun v => v * scale))

end ActivationQuantizer

namespace WeightQuantizer

/-- The tensor-global divisor torch.max(torch.abs(torch.tanh(input))) that
normalizes the tanh output. -/
noncomputable def divisor (input : List ℝ) : ℝ :=
  maxAbs (input.map Real.tanh)

/-- WeightQuantizer.forward for a given w_bits. -/
noncomputable def forward (w_bits : ℕ) (input : List ℝ) : Except String (List ℝ) :=
  if w_bits = 32 then Except.ok input
  else if w_bits = 1 then Except.error "AssertionError: binary quantization is not supported"
  else
    let t := input.map Real.tanh
    let normed := t.map (fun v => v / 2 / maxAbs t + 1 / 2)
    let scale : ℝ := 1 / ((2 : ℝ) ^ w_bits - 1)
    let deq := (Round.forward (normed.map (fun v => v / scale))).map (fun v => v * scale)
    Except.ok (deq.map (fun v => 2 * v - 1))

end WeightQuantizer

/-!
The module graph.  A leaf layer stores its hyperparameters together with
references (store indices) to its weight and optional bias tensors, so that
object identity / storage sharing can be expressed.  The store holds the
tensor payloads as lists of rationals.
-/

/-- Hyperparameters of nn.Conv2d. -/
structure Conv2dParams where
  in_channels : ℕ
  out_channels : ℕ
  kernel_size : ℕ × ℕ
  stride : ℕ × ℕ
  padding : ℕ × ℕ
  dilation : ℕ × ℕ
  groups : ℕ
  bias : Bool
  padding_mode : String

/-- Hyperparameters of nn.ConvTranspose2d. -/
structure ConvT2dParams where
  in_channels : ℕ
  out_channels : ℕ
  kernel_size : ℕ × ℕ
  stride : ℕ × ℕ
  padding : ℕ × ℕ
  output_padding : ℕ × ℕ
  dilation : ℕ × ℕ
  groups : ℕ
  bias : Bool
  padding_mode : String

/-- Hyperparameters of nn.Linear. -/
structure LinearParams where
  in_features : ℕ
  out_features : ℕ
  bias : Bool

/-- A leaf layer of the module graph.  The quantized variants are the
wrapper classes of the source file; QuantConv2d additionally stores its
first_layer flag (QuantConvTranspose2d and QuantLinear have none).
Since QuantConv2d subclasses nn.Conv2d (and likewise for the other two
wrappers), isinstance checks in the rewriter match both the plain and the
quantized variant of each kind. -/
inductive Layer where
  | conv2d (p : Conv2dParams) (weight : ℕ) (bias : Option ℕ)
  | convT2d (p : ConvT2dParams) (weight : ℕ) (bias : Option ℕ)
  | linear (p : LinearParams) (weight : ℕ) (bias : Option ℕ)
  | quantConv2d (p : Conv2dParams) (a_bits w_bits : ℕ) (first_layer : Bool)
      (weight : ℕ) (bias : Option ℕ)
  | quantConvT2d (p : ConvT2dParams) (a_bits w_bits : ℕ) (weight : ℕ) (bias : Option ℕ)
  | quantLinear (p : LinearParams) (a_bits w_bits : ℕ) (weight : ℕ) (bias : Option ℕ)
  | other (tag : String)

mutual

/-- A module graph: a leaf layer or a container with named children in
declaration order. -/
inductive NNModule where
  | leaf (l : Layer)
  | container (children : Children)

/-- The named-children list of a container. -/
inductive Children where
  | nil
  | cons (name : String) (child : NNModule) (rest : Children)

end

/-- isinstance(child, nn.Conv2d) / nn.ConvTranspose2d / nn.Linear:
the child is an eligible leaf of the rewriter. -/
def elig : Layer → Bool
  | .conv2d _ _ _ => true
  | .convT2d _ _ _ => true
  | .linear _ _ _ => true
  | .quantConv2d _ _ _ _ _ _ => true
  | .quantConvT2d _ _ _ _ _ => true
  | .quantLinear _ _ _ _ _ => true
  | .other _ => false

/-- The bias reference of a layer (none for unsupported leaves or a
missing bias). -/
def biasRef : Layer → Option ℕ
  | .conv2d _ _ b => b
  | .convT2d _ _ b => b
  | .linear _ _ b => b
  | .quantConv2d _ _ _ _ _ b => b
  | .quantConvT2d _ _ _ _ b => b
  | .quantLinear _ _ _ _ b => b
  | .other _ => none

/-- The first_layer flag of a QuantConv2d wrapper (none for every other
layer kind, which has no such flag). -/
def firstLayerFlag : Layer → Option Bool
  | .quantConv2d _ _ _ fl _ _ => some fl
  | _ => none

/-- The successfully constructed-and-transplanted wrapper for an eligible
child, exactly as in add_quant_op: all hyperparameters are taken from the
child except bias, which is passed as the literal True, and first_layer,
which is left at the constructor default 0; the child's weight and bias
tensors are then transplanted by reference (wrapper.weight.data =
child.weight, same for bias).  The transplant's failure mode — assigning
a None bias to the wrapper's bias parameter raises TypeError — is
modelled in add_quant_op, which checks the child's bias before installing
this wrapper; construction itself always succeeds and never sets
first_layer.  On a non-eligible layer (never reached by the rewriter)
this is the identity. -/
def wrapLayer (a_bits w_bits : ℕ) : Layer → Layer
  | .conv2d p w b => .quantConv2d { p with bias := true } a_bits w_bits false w b
  | .convT2d p w b => .quantConvT2d { p with bias := true } a_bits w_bits w b
  | .linear p w b => .quantLinear { p with bias := true } a_bits w_bits w b
  | .quantConv2d p _ _ _ w b => .quantConv2d { p with bias := true } a_bits w_bits false w b
  | .quantConvT2d p _ _ w b => .quantConvT2d { p with bias := true } a_bits w_bits w b
  | .quantLinear p _ _ w b => .quantLinear { p with bias := true } a_bits w_bits w b
  | .other t => .other t

mutual

/-- add_quant_op on a module: iterate over the module's named children;
an eligible leaf child bumps the shared counter and is replaced by its
wrapper when the bumped counter exceeds 1; any other child is recursed
into with the same counter.  The counter is threaded explicitly (the
Python code shares a one-element list by reference).  Replacing a child
whose bias is None raises TypeError at the transplant
(wrapper.bias.data = child.bias), which propagates out of the whole
rewrite; the error result models that propagated exception (it discards
the partially rewritten graph, which no caller of the raising prepare can
observe). -/
def add_quant_op (m : NNModule) (c : ℕ) (a_bits w_bits : ℕ) :
    Except String (NNModule × ℕ) :=
  match m with
  | .leaf l => .ok (.leaf l, c)
  | .container cs =>
      match add_quant_op_children cs c a_bits w_bits with
      | .error e => .error e
      | .ok r => .ok (.container r.1, r.2)

/-- add_quant_op's loop over the named children of one container. -/
def add_quant_op_children (cs : Children) (c : ℕ) (a_bits w_bits : ℕ) :
    Except String (Children × ℕ) :=
  match cs with
  | .nil => .ok (.nil, c)
  | .cons n (.leaf l) rest =>
      if elig l then
        if 1 < c + 1 then
          match biasRef l with
          | none =>
              .error "TypeError: Variable data has to be a tensor, but got NoneType"
          | some _ =>
              match add_quant_op_children rest (c + 1) a_bits w_bits with
              | .error e => .error e
              | .ok r => .ok (.cons n (.leaf (wrapLayer a_bits w_bits l)) r.1, r.2)
        else
          match add_quant_op_children rest (c + 1) a_bits w_bits with
          | .error e => .error e
          | .ok r => .ok (.cons n (.leaf l) r.1, r.2)
      else
        match add_quant_op_children rest c a_bits w_bits with
        | .error e => .error e
        | .ok r => .ok (.cons n (.leaf l) r.1, r.2)
  | .cons n (.container inner) rest =>
      match add_quant_op_children inner c a_bits w_bits with
      | .error e => .error e
      | .ok ri =>
          match add_quant_op_children rest ri.2 a_bits w_bits with
          | .error e => .error e
          | .ok r => .ok (.cons n (.container ri.1) r.1, r.2)

end

/-- The tensor store: index = tensor identity, payload = tensor values. -/
abbrev Store := List (List ℚ)

/-- Copy one tensor: allocate a fresh reference holding a copy of the
referenced payload. -/
def copyTensor (s : Store) (r : ℕ) : ℕ × Store :=
  (s.length, s ++ [s.getD r []])

/-- Copy an optional tensor reference (None stays None). -/
def copyOptTensor (s : Store) : Option ℕ → Option ℕ × Store
  | none => (none, s)
  | some r =>
      let c := copyTensor s r
      (some c.1, c.2)

/-- copy.deepcopy on a leaf layer: same hyperparameters, freshly copied
weight and bias tensors. -/
def deepcopyL (l : Layer) (s : Store) : Layer × Store :=
  match l with
  | .conv2d p w b =>
      let cw := copyTensor s w
      let cb := copyOptTensor cw.2 b
      (.conv2d p cw.1 cb.1, cb.2)
  | .convT2d p w b =>
      let cw := copyTensor s w
      let cb := copyOptTensor cw.2 b
      (.convT2d p cw.1 cb.1, cb.2)
  | .linear p w b =>
      let cw := copyTensor s w
      let cb := copyOptTensor cw.2 b
      (.linear p cw.1 cb.1, cb.2)
  | .quantConv2d p a q fl w b =>
      let cw := copyTensor s w
      let cb := copyOptTensor cw.2 b
      (.quantConv2d p a q fl cw.1 cb.1, cb.2)
  | .quantConvT2d p a q w b =>
      let cw := copyTensor s w
      let cb := copyOptTensor cw.2 b
      (.quantConvT2d p a q cw.1 cb.1, cb.2)
  | .quantLinear p a q w b =>
      let cw := copyTensor s w
      let cb := copyOptTensor cw.2 b
      (.quantLinear p a q cw.1 cb.1, cb.2)
  | .other t => (.other t, s)

mutual

/-- copy.deepcopy on a module graph: recursively copy the structure and
duplicate every tensor into fresh storage. -/
def deepcopyM (m : NNModule) (s : Store) : NNModule × Store :=
  match m with
  | .leaf l =>
      let r := deepcopyL l s
      (.leaf r.1, r.2)
  | .container cs =>
      let r := deepcopyC cs s
      (.container r.1, r.2)

/-- copy.deepcopy on a children list. -/
def deepcopyC (cs : Children) (s : Store) : Children × Store :=
  match cs with
  | .nil => (.nil, s)
  | .cons n m rest =>
      let rm := deepcopyM m s
      let rr := deepcopyC rest rm.2
      (.cons n rm.1 rr.1, rr.2)

end

/-- All tensor references of a layer. -/
def refsL : Layer → List ℕ
  | .conv2d _ w b => w :: b.toList
  | .convT2d _ w b => w :: b.toList
  | .linear _ w b => w :: b.toList
  | .quantConv2d _ _ _ _ w b => w :: b.toList
  | .quantConvT2d _ _ _ w b => w :: b.toList
  | .quantLinear _ _ _ w b => w :: b.toList
  | .other _ => []

mutual

/-- All tensor references of a module graph. -/
def refsM : NNModule → List ℕ
  | .leaf l => refsL l
  | .container cs => refsC cs

/-- All tensor references of a children list. -/
def refsC : Children → List ℕ
  | .nil => []
  | .cons _ m rest => refsM m ++ refsC rest

end

/-- prepare(model, inplace, a_bits, w_bits): deep-copy unless inplace,
then run add_quant_op with a fresh counter 0.  The store is returned
alongside the possibly-raising rewrite result: the heap outlives a
propagated exception. -/
def prepare (model : NNModule) (inplace : Bool) (a_bits w_bits : ℕ)
    (s : Store) : Except String NNModule × Store :=
  if inplace then
    match add_quant_op model 0 a_bits w_bits with
    | .error e => (.error e, s)
    | .ok r => (.ok r.1, s)
  else
    let d := deepcopyM model s
    match add_quant_op d.1 0 a_bits w_bits with
    | .error e => (.error e, d.2)
    | .ok r => (.ok r.1, d.2)

/-!
Specification-side views of the traversal: the eligible leaves that the
rewriter's recursion visits, in traversal order, and the intended
keep-first / wrap-rest transform on that sequence.
-/

mutual

/-- The eligible leaves the rewriter's recursion over a module visits,
in traversal order (the rewriter only ever looks at children of
containers, so a bare leaf at the root contributes nothing). -/
def eligM : NNModule → List Layer
  | .leaf _ => []
  | .container cs => eligC cs

/-- The eligible leaves visited below a children list, in order. -/
def eligC : Children → List Layer
  | .nil => []
  | .cons _ (.leaf l) rest => (if elig l then [l] else []) ++ eligC rest
  | .cons _ (.container inner) rest => eligC inner ++ eligC rest

end

/-- The effect of the counter policy on the sequence of eligible leaves:
with incoming counter c, the k-th leaf is wrapped exactly when c + k + 1
exceeds 1 and kept otherwise. -/
def quantAfter (a_bits w_bits : ℕ) : ℕ → List Layer → List Layer
  | _, [] => []
  | c, l :: ls =>
      (if 1 < c + 1 then wrapLayer a_bits w_bits l else l) ::
        quantAfter a_bits w_bits (c + 1) ls

/-!
Forward passes of the wrapper layers.  The underlying convolution /
transposed convolution / affine primitive belongs to the host numerical
engine, so a forward pass is embedded as the exact call it hands to that
primitive: the (possibly quantized) input, the quantized weight, the
untouched bias and the stored hyperparameters.
-/

/-- The call F.conv2d(quant_input, quant_weight, bias, stride, padding,
dilation, groups). -/
structure Conv2dCall where
  input : List ℝ
  weight : List ℝ
  bias : Option (List ℝ)
  stride : ℕ × ℕ
  padding : ℕ × ℕ
  dilation : ℕ × ℕ
  groups : ℕ

/-- The call F.conv_transpose2d(quant_input, quant_weight, bias, stride,
padding, output_padding, groups, dilation). -/
structure ConvT2dCall where
  input : List ℝ
  weight : List ℝ
  bias : Option (List ℝ)
  stride : ℕ × ℕ
  padding : ℕ × ℕ
  output_padding : ℕ × ℕ
  groups : ℕ
  dilation : ℕ × ℕ

/-- The call F.linear(quant_input, quant_weight, bias). -/
structure LinearCall where
  input : List ℝ
  weight : List ℝ
  bias : Option (List ℝ)

namespace QuantConv2d

/-- QuantConv2d.forward: quantize the input unless first_layer, always
quantize the weight, then call F.conv2d. -/
noncomputable def forward (a_bits w_bits : ℕ) (first_layer : Bool)
    (p : Conv2dParams) (weight : List ℝ) (bias : Option (List ℝ))
    (input : List ℝ) : Except String Conv2dCall :=
  match (if first_layer then Except.ok input
         else ActivationQuantizer.forward a_bits input) with
  | .error e => .error e
  | .ok quant_input =>
      match WeightQuantizer.forward w_bits weight with
      | .error e => .error e
      | .ok quant_weight =>
          .ok ⟨quant_input, quant_weight, bias, p.stride, p.padding,
               p.dilation, p.groups⟩

end QuantConv2d

namespace QuantConvTranspose2d

/-- QuantConvTranspose2d.forward: always quantize input and weight, then
call F.conv_transpose2d. -/
noncomputable def forward (a_bits w_bits : ℕ) (p : ConvT2dParams)
    (weight : List ℝ) (bias : Option (List ℝ))
    (input : List ℝ) : Except String ConvT2dCall :=
  match ActivationQuantizer.forward a_bits input with
  | .error e => .error e
  | .ok quant_input =>
      match WeightQuantizer.forward w_bits weight with
      | .error e => .error e
      | .ok quant_weight =>
          .ok ⟨quant_input, quant_weight, bias, p.stride, p.padding,
               p.output_padding, p.groups, p.dilation⟩

end QuantConvTranspose2d

namespace QuantLinear

/-- QuantLinear.forward: always quantize input and weight, then call
F.linear. -/
noncomputable def forward (a_bits w_bits : ℕ)
    (weight : List ℝ) (bias : Option (List ℝ))
    (input : List ℝ) : Except String LinearCall :=
  match ActivationQuantizer.forward a_bits input with
  | .error e => .error e
  | .ok quant_input =>
      match WeightQuantizer.forward w_bits weight with
      | .error e => .error e
      | .ok quant_weight => .ok ⟨quant_input, quant_weight, bias⟩

end QuantLinear

/-!
Helper lemmas about the rounding primitive and the quantization levels.
-/

theorem rhe_nonneg {α : Type} [LinearOrderedField α] [FloorRing α]
    {x : α} (hx : 0 ≤ x) : 0 ≤ rhe x := by
  have hf : (0 : ℤ) ≤ ⌊x⌋ := Int.floor_nonneg.mpr hx
  unfold rhe
  split_ifs <;> omega

theorem rhe_le_of_le {α : Type} [LinearOrderedField α] [FloorRing α]
    {x : α} {n : ℤ} (h : x ≤ (n : α)) : rhe x ≤ n := by
  have hfl : ⌊x⌋ ≤ n := by
    have := Int.floor_le_floor (α := α) h
    simpa using this
  have hkey : ¬ Int.fract x < 1 / 2 → ⌊x⌋ + 1 ≤ n := by
    intro hge
    push_neg at hge
    have hx : (⌊x⌋ : α) + Int.fract x = x := Int.floor_add_fract x
    have : (⌊x⌋ : α) + 1 / 2 ≤ (n : α) := by
      calc (⌊x⌋ : α) + 1 / 2 ≤ (⌊x⌋ : α) + Int.fract x := by linarith
        _ = x := hx
        _ ≤ (n : α) := h
    have hlt : (⌊x⌋ : α) < (n : α) := by linarith
    exact_mod_cast Int.add_one_le_of_lt (by exact_mod_cast hlt)
  unfold rhe
  split_ifs with h1 h2 h3
  · exact hfl
  · exact hkey h1
  · exact hfl
  · exact hkey h1

theorem rhe_intCast {α : Type} [LinearOrderedField α] [FloorRing α]
    (n : ℤ) : rhe ((n : ℤ) : α) = n := by
  unfold rhe
  simp [Int.fract_intCast]

/-- The quantize/dequantize round trip of a value of [0, 1] lands on one
of the 2^b levels k/(2^b - 1), which all lie inside [0, 1]. -/
theorem quantLevel {α : Type} [LinearOrderedField α] [FloorRing α]
    {b : ℕ} (hb : 1 ≤ b) {v : α} (h0 : 0 ≤ v) (h1 : v ≤ 1) :
    ∃ k : ℕ, k < 2 ^ b ∧
      rhe (v / (1 / ((2 : α) ^ b - 1))) = (k : ℤ) ∧
      0 ≤ (k : α) * (1 / ((2 : α) ^ b - 1)) ∧
      (k : α) * (1 / ((2 : α) ^ b - 1)) ≤ 1 := by
  have h2b : (1 : α) < (2 : α) ^ b := one_lt_pow₀ one_lt_two (by omega)
  have hD : (0 : α) < (2 : α) ^ b - 1 := by linarith
  have harg : v / (1 / ((2 : α) ^ b - 1)) = v * ((2 : α) ^ b - 1) := by
    field_simp
  have hub : v * ((2 : α) ^ b - 1) ≤ (((2 : ℤ) ^ b - 1 : ℤ) : α) := by
    push_cast
    nlinarith
  have h0' : 0 ≤ v * ((2 : α) ^ b - 1) := mul_nonneg h0 hD.le
  have hr0 : 0 ≤ rhe (v / (1 / ((2 : α) ^ b - 1))) := by
    rw [harg]; exact rhe_nonneg h0'
  have hrN : rhe (v / (1 / ((2 : α) ^ b - 1))) ≤ (2 : ℤ) ^ b - 1 := by
    rw [harg]; exact rhe_le_of_le hub
  have hcast2 : ((2 ^ b : ℕ) : ℤ) = (2 : ℤ) ^ b := by push_cast; ring
  refine ⟨(rhe (v / (1 / ((2 : α) ^ b - 1)))).toNat, by omega,
    (Int.toNat_of_nonneg hr0).symm, by positivity, ?_⟩
  have hk : ((rhe (v / (1 / ((2 : α) ^ b - 1)))).toNat : α) ≤ (2 : α) ^ b - 1 := by
    have h1' : (((rhe (v / (1 / ((2 : α) ^ b - 1)))).toNat : ℤ) : α) ≤
        (((2 : ℤ) ^ b - 1 : ℤ) : α) := by
      exact_mod_cast (by omega : ((rhe (v / (1 / ((2 : α) ^ b - 1)))).toNat : ℤ) ≤
        (2 : ℤ) ^ b - 1)
    calc ((rhe (v / (1 / ((2 : α) ^ b - 1)))).toNat : α)
        = (((rhe (v / (1 / ((2 : α) ^ b - 1)))).toNat : ℤ) : α) := by push_cast; ring
      _ ≤ (((2 : ℤ) ^ b - 1 : ℤ) : α) := h1'
      _ = (2 : α) ^ b - 1 := by push_cast; ring
  calc ((rhe (v / (1 / ((2 : α) ^ b - 1)))).toNat : α) * (1 / ((2 : α) ^ b - 1))
      ≤ ((2 : α) ^ b - 1) * (1 / ((2 : α) ^ b - 1)) :=
        mul_le_mul_of_nonneg_right hk (by positivity)
    _ = 1 := by field_simp

/-- Claim C2: for bit-width exactly 1 both quantizers abort (the failed
assertion) on every input and never return a value. -/
theorem C2_bits_one_rejected :
    ∀ (x : List ℚ) (y : List ℝ),
      ActivationQuantizer.forward 1 x =
        Except.error "AssertionError: binary quantization is not supported" ∧
      WeightQuantizer.forward 1 y =
        Except.error "AssertionError: binary quantization is not supported" := by
  intro x y
  constructor
  · simp [ActivationQuantizer.forward]
  · simp [WeightQuantizer.forward]

/-- Claim C3: for bit-width exactly 32 both quantizers are the identity on
every input tensor. -/
theorem C3_bits_32_identity :
    ∀ (x : List ℚ) (y : List ℝ),
      ActivationQuantizer.forward 32 x = Except.ok x ∧
      WeightQuantizer.forward 32 y = Except.ok y := by
  intro x y
  constructor
  · simp [ActivationQuantizer.forward]
  · simp [WeightQuantizer.forward]

/-- Claim C6: the STE rounding primitive's backward pass returns the
incoming output gradient unchanged, elementwise, independently of the
forward input. -/
theorem C6_ste_backward_identity :
    ∀ (g : List ℚ), Round.backward g = g := by
  intro g
  simp [Round.backward]

theorem torchClamp_mem {α : Type} [LinearOrder α] (x lo hi : α) (h : lo ≤ hi) :
    lo ≤ torchClamp x lo hi ∧ torchClamp x lo hi ≤ hi :=
  ⟨le_min (le_max_right x lo) h, min_le_right _ _⟩

/-- Claim C4: for 2 <= b <= 31 the activation quantizer computes
round(clamp(0.1 x, 0, 1) / scale) * scale elementwise with
scale = 1/(2^b - 1); every output element lies in [0, 1] and the output
takes at most 2^b distinct values. -/
theorem C4_activation_quantizer (b : ℕ) (x : List ℚ) (hb2 : 2 ≤ b) (hb31 : b ≤ 31) :
    ActivationQuantizer.forward b x = Except.ok (x.map (fun v =>
      ((rhe (torchClamp (v * (1 / 10)) 0 1 / (1 / ((2 : ℚ) ^ b - 1))) : ℤ) : ℚ) *
        (1 / ((2 : ℚ) ^ b - 1)))) ∧
    ∀ y, ActivationQuantizer.forward b x = Except.ok y →
      (∀ u ∈ y, 0 ≤ u ∧ u ≤ 1) ∧ y.toFinset.card ≤ 2 ^ b := by
  have hb32 : b ≠ 32 := by omega
  have hb1 : b ≠ 1 := by omega
  have hform : ActivationQuantizer.forward b x = Except.ok (x.map (fun v =>
      ((rhe (torchClamp (v * (1 / 10)) 0 1 / (1 / ((2 : ℚ) ^ b - 1))) : ℤ) : ℚ) *
        (1 / ((2 : ℚ) ^ b - 1)))) := by
    simp [ActivationQuantizer.forward, Round.forward, hb32, hb1, List.map_map]
  refine ⟨hform, ?_⟩
  intro y hy
  rw [hform] at hy
  injection hy with hy
  subst hy
  have hmain : ∀ u ∈ x.map (fun v =>
      ((rhe (torchClamp (v * (1 / 10)) 0 1 / (1 / ((2 : ℚ) ^ b - 1))) : ℤ) : ℚ) *
        (1 / ((2 : ℚ) ^ b - 1))),
      ∃ k : ℕ, k < 2 ^ b ∧ u = (k : ℚ) * (1 / ((2 : ℚ) ^ b - 1)) ∧ 0 ≤ u ∧ u ≤ 1 := by
    intro u hu
    rw [List.mem_map] at hu
    obtain ⟨v, _, rfl⟩ := hu
    obtain ⟨hc0, hc1⟩ := torchClamp_mem (v * (1 / 10)) 0 1 zero_le_one
    obtain ⟨k, hk, hrhe, hk0, hk1⟩ := quantLevel (by omega : 1 ≤ b) hc0 hc1
    rw [hrhe]
    push_cast
    exact ⟨k, hk, rfl, hk0, hk1⟩
  constructor
  · intro u hu
    obtain ⟨k, _, _, h0, h1⟩ := hmain u hu
    exact ⟨h0, h1⟩
  · have hsub : (x.map (fun v =>
        ((rhe (torchClamp (v * (1 / 10)) 0 1 / (1 / ((2 : ℚ) ^ b - 1))) : ℤ) : ℚ) *
          (1 / ((2 : ℚ) ^ b - 1)))).toFinset ⊆
        (Finset.range (2 ^ b)).image (fun k : ℕ => (k : ℚ) * (1 / ((2 : ℚ) ^ b - 1))) := by
      intro u hu
      rw [List.mem_toFinset] at hu
      obtain ⟨k, hk, hu, _, _⟩ := hmain u hu
      exact Finset.mem_image.mpr ⟨k, Finset.mem_range.mpr hk, hu.symm⟩
    calc (x.map _).toFinset.card
        ≤ ((Finset.range (2 ^ b)).image
            (fun k : ℕ => (k : ℚ) * (1 / ((2 : ℚ) ^ b - 1)))).card :=
          Finset.card_le_card hsub
      _ ≤ (Finset.range (2 ^ b)).card := Finset.card_image_le
      _ = 2 ^ b := Finset.card_range _

/-- Witness for C4 at b = 8 on a concrete tensor. -/
theorem C4_witness :
    (2 ≤ 8 ∧ 8 ≤ 31) ∧
    ActivationQuantizer.forward 8 [(1 / 2 : ℚ)] = Except.ok ([(1 / 2 : ℚ)].map (fun v =>
      ((rhe (torchClamp (v * (1 / 10)) 0 1 / (1 / ((2 : ℚ) ^ 8 - 1))) : ℤ) : ℚ) *
        (1 / ((2 : ℚ) ^ 8 - 1)))) :=
  ⟨⟨by decide, by decide⟩,
    (C4_activation_quantizer 8 [(1 / 2 : ℚ)] (by decide) (by decide)).1⟩

/-!
Facts about the hyperbolic tangent and the tensor-global maximum used by
the weight quantizer.
-/

theorem tanh_ne_zero_of_ne_zero {x : ℝ} (hx : x ≠ 0) : Real.tanh x ≠ 0 := by
  rw [Real.tanh_eq_sinh_div_cosh]
  exact div_ne_zero (Real.sinh_ne_zero.mpr hx) (ne_of_gt (Real.cosh_pos x))

theorem tanh_one_pos : 0 < Real.tanh 1 := by
  rw [Real.tanh_eq_sinh_div_cosh]
  exact div_pos (Real.sinh_pos_iff.mpr one_pos) (Real.cosh_pos 1)

theorem maxAbs_nonneg {α : Type} [LinearOrderedField α] (l : List α) :
    0 ≤ maxAbs l := by
  induction l with
  | nil => simp [maxAbs]
  | cons a l ih =>
      simp only [maxAbs, List.foldr] at ih ⊢
      exact le_max_of_le_right ih

theorem le_maxAbs {α : Type} [LinearOrderedField α] {l : List α} {v : α}
    (h : v ∈ l) : |v| ≤ maxAbs l := by
  induction l with
  | nil => cases h
  | cons a l ih =>
      rcases List.mem_cons.mp h with h1 | h2
      · subst h1
        exact le_max_left _ _
      · exact le_trans (ih h2) (le_max_right _ _)

theorem maxAbs_eq_zero {α : Type} [LinearOrderedField α] {l : List α}
    (h : ∀ v ∈ l, v = 0) : maxAbs l = 0 := by
  induction l with
  | nil => simp [maxAbs]
  | cons a l ih =>
      have ha : a = 0 := h a (List.mem_cons_self a l)
      have hl : maxAbs l = 0 := ih (fun v hv => h v (List.mem_cons_of_mem a hv))
      simp only [maxAbs, List.foldr] at hl ⊢
      rw [hl, ha]
      simp

/-- The weight quantizer at 8 bits maps the one-element tensor [1] to
exactly [1]: the input attains the tensor-global maximum, is normalized to
exactly 1, and is mapped back to 2 * 1 - 1 = 1. -/
theorem wq_eight_one : WeightQuantizer.forward 8 [(1 : ℝ)] = Except.ok [1] := by
  have hpos : 0 < Real.tanh 1 := tanh_one_pos
  have ht : Real.tanh 1 ≠ 0 := ne_of_gt hpos
  have habs : |Real.tanh 1| = Real.tanh 1 := abs_of_pos hpos
  have hnorm : Real.tanh 1 / 2 / Real.tanh 1 + 2⁻¹ = 1 := by
    field_simp
    ring
  simp [WeightQuantizer.forward, maxAbs, Round.forward]
  rw [habs, hnorm]
  have h255 : (1 : ℝ) * ((2 : ℝ) ^ 8 - 1) = ((255 : ℤ) : ℝ) := by norm_num
  rw [h255, rhe_intCast]
  norm_num

/-- Claim C5 counterexample: at 8 bits and input [1] the weight quantizer
returns exactly 1, which does not lie strictly inside (-1, 1); the element
attaining the tensor-global maximum is always sent to an endpoint. -/
theorem C5_counterexample :
    WeightQuantizer.forward 8 [(1 : ℝ)] = Except.ok [1] ∧
    (1 : ℝ) ∉ Set.Ioo (-1 : ℝ) 1 :=
  ⟨wq_eight_one, by simp⟩

/-- Claim C5 as amended: for 2 <= b <= 8 and any input tensor with at
least one nonzero element, every element of the weight quantizer's output
lies in the closed interval [-1, 1] (the endpoints are attainable). -/
theorem C5_weight_range (b : ℕ) (x : List ℝ) (hb2 : 2 ≤ b) (hb8 : b ≤ 8)
    (hnz : ∃ v ∈ x, v ≠ 0) :
    ∀ y, WeightQuantizer.forward b x = Except.ok y →
      ∀ u ∈ y, -1 ≤ u ∧ u ≤ 1 := by
  have hb32 : b ≠ 32 := by omega
  have hb1 : b ≠ 1 := by omega
  intro y hy
  simp only [WeightQuantizer.forward, hb32, hb1, if_false, if_neg, ite_false,
    reduceIte, Round.forward, List.map_map, Except.ok.injEq] at hy
  subst hy
  intro u hu
  rw [List.mem_map] at hu
  obtain ⟨v, hvx, rfl⟩ := hu
  simp only [Function.comp_apply]
  have hm : 0 < maxAbs (x.map Real.tanh) := by
    obtain ⟨v0, hv0, hv0ne⟩ := hnz
    have h1 : |Real.tanh v0| ≤ maxAbs (x.map Real.tanh) :=
      le_maxAbs (List.mem_map.mpr ⟨v0, hv0, rfl⟩)
    have h2 : 0 < |Real.tanh v0| := abs_pos.mpr (tanh_ne_zero_of_ne_zero hv0ne)
    linarith
  have hvm : |Real.tanh v| ≤ maxAbs (x.map Real.tanh) :=
    le_maxAbs (List.mem_map.mpr ⟨v, hvx, rfl⟩)
  obtain ⟨hvml, hvmr⟩ := abs_le.mp hvm
  have hn0 : 0 ≤ Real.tanh v / 2 / maxAbs (x.map Real.tanh) + 1 / 2 := by
    rw [div_div]
    have h2m : 0 < 2 * maxAbs (x.map Real.tanh) := by linarith
    have : -(1 / 2) ≤ Real.tanh v / (2 * maxAbs (x.map Real.tanh)) := by
      rw [le_div_iff h2m]
      linarith
    linarith
  have hn1 : Real.tanh v / 2 / maxAbs (x.map Real.tanh) + 1 / 2 ≤ 1 := by
    rw [div_div]
    have h2m : 0 < 2 * maxAbs (x.map Real.tanh) := by linarith
    have : Real.tanh v / (2 * maxAbs (x.map Real.tanh)) ≤ 1 / 2 := by
      rw [div_le_iff h2m]
      linarith
    linarith
  obtain ⟨k, _, hrhe, hk0, hk1⟩ := quantLevel (by omega : 1 ≤ b) hn0 hn1
  rw [hrhe]
  push_cast
  constructor <;> linarith

/-- Witness for the amended C5 at b = 8 on the tensor [1], whose single
element is nonzero; the output element 1 indeed lies in [-1, 1]. -/
theorem C5_witness :
    WeightQuantizer.forward 8 [(1 : ℝ)] = Except.ok [1] ∧
    -1 ≤ (1 : ℝ) ∧ (1 : ℝ) ≤ 1 :=
  ⟨wq_eight_one,
    C5_weight_range 8 [(1 : ℝ)] (by decide) (by decide) ⟨1, by simp⟩
      [1] wq_eight_one 1 (by simp)⟩

/-- Claim C10: for 2 <= b <= 31 the weight quantizer divides by the
tensor-global maximum absolute value of tanh of the input with no guard:
that divisor is strictly positive exactly when the input has a nonzero
element, and on an all-zero tensor the divisor is zero yet the forward
still reaches the division and returns a value, raising no error. -/
theorem C10_division_guard (b : ℕ) (x : List ℝ) (hb2 : 2 ≤ b) (hb31 : b ≤ 31) :
    (0 < WeightQuantizer.divisor x ↔ ∃ v ∈ x, v ≠ 0) ∧
    ((∀ v ∈ x, v = 0) → WeightQuantizer.divisor x = 0 ∧
      ∃ y, WeightQuantizer.forward b x = Except.ok y) := by
  have hb32 : b ≠ 32 := by omega
  have hb1 : b ≠ 1 := by omega
  have hzero : (∀ v ∈ x, v = 0) → WeightQuantizer.divisor x = 0 := by
    intro hall
    apply maxAbs_eq_zero
    intro v hv
    rw [List.mem_map] at hv
    obtain ⟨v0, hv0, rfl⟩ := hv
    rw [hall v0 hv0]
    exact Real.tanh_zero
  constructor
  · constructor
    · intro hpos
      by_contra hno
      push_neg at hno
      rw [hzero hno] at hpos
      exact lt_irrefl 0 hpos
    · rintro ⟨v, hv, hvne⟩
      have h1 : |Real.tanh v| ≤ WeightQuantizer.divisor x :=
        le_maxAbs (List.mem_map.mpr ⟨v, hv, rfl⟩)
      have h2 : 0 < |Real.tanh v| := abs_pos.mpr (tanh_ne_zero_of_ne_zero hvne)
      linarith
  · intro hall
    refine ⟨hzero hall, ?_⟩
    unfold WeightQuantizer.forward
    rw [if_neg hb32, if_neg hb1]
    exact ⟨_, rfl⟩

/-- Witness for C10 at b = 8 on the all-zero tensor [0]. -/
theorem C10_witness :
    (2 ≤ 8 ∧ 8 ≤ 31) ∧ WeightQuantizer.divisor [(0 : ℝ)] = 0 :=
  ⟨⟨by decide, by decide⟩,
    ((C10_division_guard 8 [(0 : ℝ)] (by decide) (by decide)).2 (by simp)).1⟩

/-!
Concrete fixtures used by witnesses and counterexamples.
-/

/-- A 3x3 convolution with a bias. -/
def sampleConv : Conv2dParams :=
  ⟨3, 16, (3, 3), (1, 1), (1, 1), (1, 1), 1, true, "zeros"⟩

/-- A one-convolution graph used for the copy-isolation witness. -/
def M7 : NNModule :=
  .container (.cons "conv1" (.leaf (.conv2d sampleConv 0 (some 1))) .nil)

/-- A two-tensor store for the copy-isolation witness. -/
def S7 : Store := [[5, 6], [7]]

/-- Claim C9: transpose-convolution and dense wrappers quantize their
input unconditionally; a convolution wrapper with first_layer false
quantizes its input; and no wrapper the rewriter constructs carries
first_layer true, so the exemption is never exercised by a wrapped
layer. -/
theorem C9_input_always_quantized :
    (∀ (a w : ℕ) (p : ConvT2dParams) (wt : List ℝ) (bs : Option (List ℝ))
        (x : List ℝ) (c : ConvT2dCall),
        QuantConvTranspose2d.forward a w p wt bs x = Except.ok c →
        ActivationQuantizer.forward a x = Except.ok c.input) ∧
    (∀ (a w : ℕ) (wt : List ℝ) (bs : Option (List ℝ)) (x : List ℝ)
        (c : LinearCall),
        QuantLinear.forward a w wt bs x = Except.ok c →
        ActivationQuantizer.forward a x = Except.ok c.input) ∧
    (∀ (a w : ℕ) (l : Layer), elig l = true →
        firstLayerFlag (wrapLayer a w l) ≠ some true) ∧
    (∀ (a w : ℕ) (p : Conv2dParams) (wr : ℕ) (br : Option ℕ),
        firstLayerFlag (wrapLayer a w (.conv2d p wr br)) = some false) ∧
    (∀ (a w : ℕ) (p : Conv2dParams) (wt : List ℝ) (bs : Option (List ℝ))
        (x : List ℝ) (c : Conv2dCall),
        QuantConv2d.forward a w false p wt bs x = Except.ok c →
        ActivationQuantizer.forward a x = Except.ok c.input) := by
  refine ⟨?_, ?_, ?_, ?_, ?_⟩
  · intro a w p wt bs x c h
    unfold QuantConvTranspose2d.forward at h
    cases haq : ActivationQuantizer.forward a x with
    | error e =>
        rw [haq] at h
        exact Except.noConfusion h
    | ok qi =>
        rw [haq] at h
        cases hwq : WeightQuantizer.forward w wt with
        | error e =>
            rw [hwq] at h
            exact Except.noConfusion h
        | ok qw =>
            rw [hwq] at h
            rw [← Except.ok.inj h]
  · intro a w wt bs x c h
    unfold QuantLinear.forward at h
    cases haq : ActivationQuantizer.forward a x with
    | error e =>
        rw [haq] at h
        exact Except.noConfusion h
    | ok qi =>
        rw [haq] at h
        cases hwq : WeightQuantizer.forward w wt with
        | error e =>
            rw [hwq] at h
            exact Except.noConfusion h
        | ok qw =>
            rw [hwq] at h
            rw [← Except.ok.inj h]
  · intro a w l hl
    cases l <;> simp [wrapLayer, firstLayerFlag]
  · intro a w p wr br
    rfl
  · intro a w p wt bs x c h
    unfold QuantConv2d.forward at h
    rw [if_neg Bool.false_ne_true] at h
    cases haq : ActivationQuantizer.forward a x with
    | error e =>
        rw [haq] at h
        exact Except.noConfusion h
    | ok qi =>
        rw [haq] at h
        cases hwq : WeightQuantizer.forward w wt with
        | error e =>
            rw [hwq] at h
            exact Except.noConfusion h
        | ok qw =>
            rw [hwq] at h
            rw [← Except.ok.inj h]

/-- Witness for C9: a transpose-convolution wrapper at 8/8 bits on input
[0] with weight [1] hands the quantized input [0] to the external
primitive, and that quantized input is the activation quantizer's
output. -/
theorem aq_eight_zero :
    ActivationQuantizer.forward 8 [(0 : ℝ)] = Except.ok [0] := by
  have h0 : rhe ((0 : ℝ)) = 0 := by
    have := rhe_intCast (α := ℝ) 0
    simpa using this
  simp [ActivationQuantizer.forward, Round.forward, torchClamp, h0]

/-- A transpose convolution used in the C9 witness. -/
def sampleConvT : ConvT2dParams :=
  ⟨16, 8, (2, 2), (2, 2), (0, 0), (0, 0), (1, 1), 1, true, "zeros"⟩

theorem C9_witness :
    QuantConvTranspose2d.forward 8 8 sampleConvT [(1 : ℝ)] none [(0 : ℝ)] =
      Except.ok ⟨[0], [1], none, sampleConvT.stride, sampleConvT.padding,
        sampleConvT.output_padding, sampleConvT.groups, sampleConvT.dilation⟩ ∧
    ActivationQuantizer.forward 8 [(0 : ℝ)] = Except.ok [0] := by
  have hfw : QuantConvTranspose2d.forward 8 8 sampleConvT [(1 : ℝ)] none [(0 : ℝ)] =
      Except.ok ⟨[0], [1], none, sampleConvT.stride, sampleConvT.padding,
        sampleConvT.output_padding, sampleConvT.groups, sampleConvT.dilation⟩ := by
    unfold QuantConvTranspose2d.forward
    rw [aq_eight_zero, wq_eight_one]
  refine ⟨hfw, ?_⟩
  have := C9_input_always_quantized.1 8 8 sampleConvT [(1 : ℝ)] none [(0 : ℝ)] _ hfw
  simpa using this

/-!
Characterization of the rewriter traversal: the final counter is the
incoming counter plus the number of eligible leaves below, and the
sequence of eligible leaves of the output is the incoming sequence with
exactly those leaves wrapped whose post-increment counter exceeds 1.
-/

theorem elig_wrapLayer (a w : ℕ) (l : Layer) (h : elig l = true) :
    elig (wrapLayer a w l) = true := by
  cases l <;> simp_all [elig, wrapLayer]

theorem quantAfter_append :
    ∀ (xs ys : List Layer) (a w c : ℕ),
      quantAfter a w c (xs ++ ys) =
        quantAfter a w c xs ++ quantAfter a w (c + xs.length) ys
  | [], ys, a, w, c => by simp [quantAfter]
  | l :: ls, ys, a, w, c => by
      simp only [List.cons_append, quantAfter, List.length_cons, List.append_eq]
      rw [quantAfter_append ls ys a w (c + 1)]
      have harith : c + (ls.length + 1) = c + 1 + ls.length := by omega
      rw [harith]

/-- Per-position bias requirement of a successful rewrite that starts at
counter c: the leaf at position k is wrapped exactly when c + k is at
least 1, and wrapping transplants the child's bias, which must then be
present (a None bias raises TypeError instead). -/
def biasOkFrom : ℕ → List Layer → Prop
  | _, [] => True
  | c, l :: ls => (1 ≤ c → (biasRef l).isSome = true) ∧ biasOkFrom (c + 1) ls

theorem biasOkFrom_append :
    ∀ (xs ys : List Layer) (c : ℕ),
      biasOkFrom c (xs ++ ys) ↔
        biasOkFrom c xs ∧ biasOkFrom (c + xs.length) ys
  | [], ys, c => by simp [biasOkFrom]
  | x :: xs, ys, c => by
      simp only [List.cons_append, biasOkFrom, List.length_cons, List.append_eq]
      rw [biasOkFrom_append xs ys (c + 1)]
      have harith : c + (xs.length + 1) = c + 1 + xs.length := by omega
      rw [harith, and_assoc]

theorem refsL_wrapLayer (a w : ℕ) (l : Layer) :
    refsL (wrapLayer a w l) = refsL l := by
  cases l <;> rfl

/-- Inversion of a successful traversal of one children list: success
means every wrapped position carried a bias tensor, the output's eligible
leaves are the input's with exactly the positions whose post-increment
counter exceeds 1 wrapped, the counter grew by one per eligible leaf, and
no tensor reference was invented. -/
theorem add_quant_op_children_inv :
    ∀ (cs : Children) (c a w : ℕ) (out : Children × ℕ),
      add_quant_op_children cs c a w = Except.ok out →
      biasOkFrom c (eligC cs) ∧
      eligC out.1 = quantAfter a w c (eligC cs) ∧
      out.2 = c + (eligC cs).length ∧
      (∀ r ∈ refsC out.1, r ∈ refsC cs)
  | .nil, c, a, w, out => by
      intro h
      simp only [add_quant_op_children, Except.ok.injEq] at h
      rw [← h]
      simp [biasOkFrom, eligC, quantAfter, refsC]
  | .cons n (.leaf l) rest, c, a, w, out => by
      intro h
      by_cases hl : elig l = true
      · rcases Nat.eq_zero_or_pos c with rfl | hc
        · simp [add_quant_op_children, hl] at h
          cases hrec : add_quant_op_children rest 1 a w with
          | error e =>
              rw [hrec] at h
              exact Except.noConfusion h
          | ok r =>
              rw [hrec] at h
              have hout := Except.ok.inj h
              have ih := add_quant_op_children_inv rest 1 a w r hrec
              have he : eligC (Children.cons n (.leaf l) rest) = l :: eligC rest := by
                simp [eligC, hl]
              have he2 : eligC (Children.cons n (.leaf l) r.1) = l :: eligC r.1 := by
                simp [eligC, hl]
              rw [← hout]
              refine ⟨?_, ?_, ?_, ?_⟩
              · rw [he]
                exact ⟨fun h0 => absurd h0 (by omega), ih.1⟩
              · rw [he2, he, ih.2.1]
                simp [quantAfter]
              · rw [he]
                have hc2 := ih.2.2.1
                simp only [List.length_cons]
                omega
              · intro q hq
                simp only [refsC, refsM, List.mem_append] at hq ⊢
                rcases hq with hq | hq
                · exact Or.inl hq
                · exact Or.inr (ih.2.2.2 q hq)
        · simp [add_quant_op_children, hl, hc] at h
          cases hb : biasRef l with
          | none =>
              rw [hb] at h
              exact Except.noConfusion h
          | some b =>
              rw [hb] at h
              cases hrec : add_quant_op_children rest (c + 1) a w with
              | error e =>
                  rw [hrec] at h
                  exact Except.noConfusion h
              | ok r =>
                  rw [hrec] at h
                  have hout := Except.ok.inj h
                  have ih := add_quant_op_children_inv rest (c + 1) a w r hrec
                  have he : eligC (Children.cons n (.leaf l) rest) =
                      l :: eligC rest := by
                    simp [eligC, hl]
                  have he2 : eligC (Children.cons n
                      (.leaf (wrapLayer a w l)) r.1) =
                      wrapLayer a w l :: eligC r.1 := by
                    simp [eligC, elig_wrapLayer a w l hl]
                  rw [← hout]
                  refine ⟨?_, ?_, ?_, ?_⟩
                  · rw [he]
                    exact ⟨fun _ => by simp [hb], ih.1⟩
                  · rw [he2, he, ih.2.1]
                    simp [quantAfter, hc]
                  · rw [he]
                    have hc2 := ih.2.2.1
                    simp only [List.length_cons]
                    omega
                  · intro q hq
                    simp only [refsC, refsM, refsL_wrapLayer,
                      List.mem_append] at hq ⊢
                    rcases hq with hq | hq
                    · exact Or.inl hq
                    · exact Or.inr (ih.2.2.2 q hq)
      · have hl' : elig l = false := by simpa using hl
        simp [add_quant_op_children, hl'] at h
        cases hrec : add_quant_op_children rest c a w with
        | error e =>
            rw [hrec] at h
            exact Except.noConfusion h
        | ok r =>
            rw [hrec] at h
            have hout := Except.ok.inj h
            have ih := add_quant_op_children_inv rest c a w r hrec
            have he : eligC (Children.cons n (.leaf l) rest) = eligC rest := by
              simp [eligC, hl']
            have he2 : eligC (Children.cons n (.leaf l) r.1) = eligC r.1 := by
              simp [eligC, hl']
            rw [← hout]
            refine ⟨?_, ?_, ?_, ?_⟩
            · rw [he]
              exact ih.1
            · rw [he2, he]
              exact ih.2.1
            · rw [he]
              exact ih.2.2.1
            · intro q hq
              simp only [refsC, refsM, List.mem_append] at hq ⊢
              rcases hq with hq | hq
              · exact Or.inl hq
              · exact Or.inr (ih.2.2.2 q hq)
  | .cons n (.container inner) rest, c, a, w, out => by
      intro h
      simp only [add_quant_op_children] at h
      cases hin : add_quant_op_children inner c a w with
      | error e =>
          rw [hin] at h
          exact Except.noConfusion h
      | ok ri =>
          rw [hin] at h
          have h2 : (match add_quant_op_children rest ri.2 a w with
              | Except.error e => Except.error e
              | Except.ok r =>
                  Except.ok (Children.cons n (NNModule.container ri.1) r.1, r.2)) =
              Except.ok out := h
          cases hrest : add_quant_op_children rest ri.2 a w with
          | error e =>
              rw [hrest] at h2
              exact Except.noConfusion h2
          | ok r =>
              rw [hrest] at h2
              have hout := Except.ok.inj h2
              have ihi := add_quant_op_children_inv inner c a w ri hin
              have ihr := add_quant_op_children_inv rest ri.2 a w r hrest
              have hcnt : ri.2 = c + (eligC inner).length := ihi.2.2.1
              have he : eligC (Children.cons n (.container inner) rest) =
                  eligC inner ++ eligC rest := by simp [eligC]
              have he2 : eligC (Children.cons n (.container ri.1) r.1) =
                  eligC ri.1 ++ eligC r.1 := by simp [eligC]
              rw [← hout]
              refine ⟨?_, ?_, ?_, ?_⟩
              · rw [he, biasOkFrom_append]
                exact ⟨ihi.1, hcnt ▸ ihr.1⟩
              · rw [he2, he, quantAfter_append, ihi.2.1, ihr.2.1, hcnt]
              · rw [he]
                have h1 := ihr.2.2.1
                simp only [List.length_append]
                omega
              · intro q hq
                simp only [refsC, List.mem_append] at hq ⊢
                rcases hq with hq | hq
                · exact Or.inl (ihi.2.2.2 q hq)
                · exact Or.inr (ihr.2.2.2 q hq)

/-- Module-level inversion of a successful rewrite. -/
theorem add_quant_op_inv (m : NNModule) (c a w : ℕ) (out : NNModule × ℕ)
    (h : add_quant_op m c a w = Except.ok out) :
    biasOkFrom c (eligM m) ∧
    eligM out.1 = quantAfter a w c (eligM m) ∧
    out.2 = c + (eligM m).length ∧
    (∀ r ∈ refsM out.1, r ∈ refsM m) := by
  cases m with
  | leaf l =>
      simp only [add_quant_op, Except.ok.injEq] at h
      rw [← h]
      simp [eligM, biasOkFrom, quantAfter, refsM]
  | container cs =>
      simp only [add_quant_op] at h
      cases hcs : add_quant_op_children cs c a w with
      | error e =>
          rw [hcs] at h
          exact Except.noConfusion h
      | ok rc =>
          rw [hcs] at h
          have hout := Except.ok.inj h
          have hi := add_quant_op_children_inv cs c a w rc hcs
          rw [← hout]
          exact ⟨hi.1, hi.2.1, hi.2.2.1, hi.2.2.2⟩

/-- Claim C8: every wrapper the rewriter actually installs is
constructed with all of the replaced child's hyperparameters, the bias
presence flag included.  A child is only ever replaced when its bias
tensor is present (a bias-free child aborts the rewrite at the transplant
before any replacement, last conjunct), and the host layer classes own a
bias parameter exactly when their bias flag is true, so for every
replaced child the constructed wrapper's literal bias=True coincides with
the child's flag and every other hyperparameter, weight reference and
bias reference is the child's own. -/
theorem C8_wrapper_hyperparams :
    (∀ (a w : ℕ) (p : Conv2dParams) (wr b : ℕ), p.bias = true →
      wrapLayer a w (.conv2d p wr (some b)) =
        .quantConv2d p a w false wr (some b)) ∧
    (∀ (a w : ℕ) (q : ConvT2dParams) (wr b : ℕ), q.bias = true →
      wrapLayer a w (.convT2d q wr (some b)) =
        .quantConvT2d q a w wr (some b)) ∧
    (∀ (a w : ℕ) (r : LinearParams) (wr b : ℕ), r.bias = true →
      wrapLayer a w (.linear r wr (some b)) =
        .quantLinear r a w wr (some b)) ∧
    (∀ (cs : Children) (c a w : ℕ) (out : Children × ℕ),
      add_quant_op_children cs c a w = Except.ok out →
      biasOkFrom c (eligC cs)) := by
  refine ⟨?_, ?_, ?_, ?_⟩
  · intro a w p wr b hp
    cases p with
    | mk i o k st pa di g bb pm =>
        have hb : bb = true := hp
        subst hb
        rfl
  · intro a w q wr b hq
    cases q with
    | mk i o k st pa op di g bb pm =>
        have hb : bb = true := hq
        subst hb
        rfl
  · intro a w r wr b hr
    cases r with
    | mk i o bb =>
        have hb : bb = true := hr
        subst hb
        rfl
  · intro cs c a w out h
    exact (add_quant_op_children_inv cs c a w out h).1

/-- Witness for C8: wrapping a biased convolution child yields a wrapper
whose entire hyperparameter record, bias flag included, is the child's
own. -/
theorem C8_witness :
    sampleConv.bias = true ∧
    wrapLayer 8 8 (.conv2d sampleConv 0 (some 1)) =
      .quantConv2d sampleConv 8 8 false 0 (some 1) :=
  ⟨rfl, C8_wrapper_hyperparams.1 8 8 sampleConv 0 1 rfl⟩

/-!
Store discipline of the deep copy: copying only appends fresh tensors, so
existing entries are preserved, and every reference in the copied graph
points at or beyond the old end of the store; the rewriter itself only
rearranges references that were already present.
-/

theorem copyOptTensor_append (s : Store) (b : Option ℕ) :
    ∃ t, (copyOptTensor s b).2 = s ++ t := by
  cases b with
  | none => exact ⟨[], by simp [copyOptTensor]⟩
  | some r => exact ⟨[s.getD r []], rfl⟩

theorem deepcopyL_append (l : Layer) (s : Store) :
    ∃ t, (deepcopyL l s).2 = s ++ t := by
  cases l with
  | other t => exact ⟨[], by simp [deepcopyL]⟩
  | conv2d p wr br =>
      obtain ⟨t, ht⟩ := copyOptTensor_append (s ++ [s.getD wr []]) br
      refine ⟨[s.getD wr []] ++ t, ?_⟩
      simp only [deepcopyL, copyTensor]
      rw [ht, List.append_assoc]
  | convT2d p wr br =>
      obtain ⟨t, ht⟩ := copyOptTensor_append (s ++ [s.getD wr []]) br
      refine ⟨[s.getD wr []] ++ t, ?_⟩
      simp only [deepcopyL, copyTensor]
      rw [ht, List.append_assoc]
  | linear p wr br =>
      obtain ⟨t, ht⟩ := copyOptTensor_append (s ++ [s.getD wr []]) br
      refine ⟨[s.getD wr []] ++ t, ?_⟩
      simp only [deepcopyL, copyTensor]
      rw [ht, List.append_assoc]
  | quantConv2d p ab wb fl wr br =>
      obtain ⟨t, ht⟩ := copyOptTensor_append (s ++ [s.getD wr []]) br
      refine ⟨[s.getD wr []] ++ t, ?_⟩
      simp only [deepcopyL, copyTensor]
      rw [ht, List.append_assoc]
  | quantConvT2d p ab wb wr br =>
      obtain ⟨t, ht⟩ := copyOptTensor_append (s ++ [s.getD wr []]) br
      refine ⟨[s.getD wr []] ++ t, ?_⟩
      simp only [deepcopyL, copyTensor]
      rw [ht, List.append_assoc]
  | quantLinear p ab wb wr br =>
      obtain ⟨t, ht⟩ := copyOptTensor_append (s ++ [s.getD wr []]) br
      refine ⟨[s.getD wr []] ++ t, ?_⟩
      simp only [deepcopyL, copyTensor]
      rw [ht, List.append_assoc]

mutual

theorem deepcopyM_append : ∀ (m : NNModule) (s : Store),
    ∃ t, (deepcopyM m s).2 = s ++ t
  | .leaf l, s => by
      obtain ⟨t, ht⟩ := deepcopyL_append l s
      exact ⟨t, by simp [deepcopyM, ht]⟩
  | .container cs, s => by
      obtain ⟨t, ht⟩ := deepcopyC_append cs s
      exact ⟨t, by simp [deepcopyM, ht]⟩

theorem deepcopyC_append : ∀ (cs : Children) (s : Store),
    ∃ t, (deepcopyC cs s).2 = s ++ t
  | .nil, s => ⟨[], by simp [deepcopyC]⟩
  | .cons n m rest, s => by
      obtain ⟨t1, h1⟩ := deepcopyM_append m s
      obtain ⟨t2, h2⟩ := deepcopyC_append rest (deepcopyM m s).2
      refine ⟨t1 ++ t2, ?_⟩
      simp only [deepcopyC]
      rw [h2, h1, List.append_assoc]

end

theorem deepcopyL_refs_ge (l : Layer) (s : Store) :
    ∀ r ∈ refsL (deepcopyL l s).1, s.length ≤ r := by
  intro r hr
  cases l with
  | other t => simp [deepcopyL, refsL] at hr
  | conv2d p wr br =>
      cases br <;> simp [deepcopyL, refsL, copyTensor, copyOptTensor] at hr <;> omega
  | convT2d p wr br =>
      cases br <;> simp [deepcopyL, refsL, copyTensor, copyOptTensor] at hr <;> omega
  | linear p wr br =>
      cases br <;> simp [deepcopyL, refsL, copyTensor, copyOptTensor] at hr <;> omega
  | quantConv2d p ab wb fl wr br =>
      cases br <;> simp [deepcopyL, refsL, copyTensor, copyOptTensor] at hr <;> omega
  | quantConvT2d p ab wb wr br =>
      cases br <;> simp [deepcopyL, refsL, copyTensor, copyOptTensor] at hr <;> omega
  | quantLinear p ab wb wr br =>
      cases br <;> simp [deepcopyL, refsL, copyTensor, copyOptTensor] at hr <;> omega

mutual

theorem deepcopyM_refs_ge : ∀ (m : NNModule) (s : Store),
    ∀ r ∈ refsM (deepcopyM m s).1, s.length ≤ r
  | .leaf l, s => by
      intro r hr
      simp only [deepcopyM, refsM] at hr
      exact deepcopyL_refs_ge l s r hr
  | .container cs, s => by
      intro r hr
      simp only [deepcopyM, refsM] at hr
      exact deepcopyC_refs_ge cs s r hr

theorem deepcopyC_refs_ge : ∀ (cs : Children) (s : Store),
    ∀ r ∈ refsC (deepcopyC cs s).1, s.length ≤ r
  | .nil, s => by
      intro r hr
      simp [deepcopyC, refsC] at hr
  | .cons n m rest, s => by
      intro r hr
      simp only [deepcopyC, refsC, List.mem_append] at hr
      rcases hr with hr | hr
      · exact deepcopyM_refs_ge m s r hr
      · obtain ⟨t1, h1⟩ := deepcopyM_append m s
        have := deepcopyC_refs_ge rest (deepcopyM m s).2 r hr
        rw [h1] at this
        simp at this
        omega

end


/-- Claim C7: prepare with inplace = false works on a deep copy: every
tensor that existed in the store before the call is unchanged after it
(whether or not the rewrite raises — mutation only ever hits the copy),
and whenever a graph is returned its tensor references are disjoint from
the original graph's, so no mutable storage is shared; the original graph
value itself is never touched. -/
theorem C7_copy_isolation (m : NNModule) (s : Store) (a w : ℕ)
    (hvalid : ∀ r ∈ refsM m, r < s.length) :
    (∀ i, i < s.length →
      ((prepare m false a w s).2).getD i [] = s.getD i []) ∧
    (∀ m2, (prepare m false a w s).1 = Except.ok m2 →
      ∀ r ∈ refsM m2, r ∉ refsM m) := by
  have hstore : (prepare m false a w s).2 = (deepcopyM m s).2 := by
    cases hq : add_quant_op (deepcopyM m s).1 0 a w <;> simp [prepare, hq]
  obtain ⟨t, ht⟩ := deepcopyM_append m s
  constructor
  · intro i hi
    rw [hstore, ht]
    exact List.getD_append s t [] i hi
  · intro m2 hm2 r hr hmem
    have hq : ∃ out, add_quant_op (deepcopyM m s).1 0 a w = Except.ok out ∧
        m2 = out.1 := by
      cases hq : add_quant_op (deepcopyM m s).1 0 a w with
      | error e => simp [prepare, hq] at hm2
      | ok out =>
          simp [prepare, hq] at hm2
          exact ⟨out, rfl, hm2.symm⟩
    obtain ⟨out, hout, rfl⟩ := hq
    have h1 : r ∈ refsM (deepcopyM m s).1 :=
      (add_quant_op_inv (deepcopyM m s).1 0 a w out hout).2.2.2 r hr
    have h2 : s.length ≤ r := deepcopyM_refs_ge m s r h1
    have h3 : r < s.length := hvalid r hmem
    omega

/-- The deep copy of M7 produced by the C7 witness run: the single
convolution is the first eligible leaf, so it is kept, with its weight
and bias now referring to the freshly copied tensors 2 and 3. -/
def M7Copied : NNModule :=
  .container (.cons "conv1" (.leaf (.conv2d sampleConv 2 (some 3))) .nil)

/-- Witness for C7 on a one-convolution graph over a two-tensor store. -/
theorem C7_witness :
    ((prepare M7 false 8 8 S7).2).getD 0 [] = S7.getD 0 [] ∧
    (2 : ℕ) ∉ refsM M7 :=
  ⟨(C7_copy_isolation M7 S7 8 8 (by decide)).1 0 (by decide),
   (C7_copy_isolation M7 S7 8 8 (by decide)).2 M7Copied rfl 2 (by decide)⟩
